import Mathlib

/-!
Verification of the ShotSpotter deduplication engine
(`cgic_scripts/shotspotter.py`, function `clean_duplicates`).

The pipeline is embedded shallowly:
  * an input row of the data frame is an `Event` (id, time in minutes,
    planar coordinates in meters, optional round count — `none` models a
    missing/NaN `rounds` cell);
  * the spatial join of the frame against its buffered copy followed by the
    space/time filters (source lines 56–78) is `closeRows`;
  * the `networkx` graph and its connected components (lines 88–107) are
    `graphNodes`/`edgesOf` and `componentsOf`, where reachability is computed
    by an iterated one-step expansion `spread` and proved equivalent to the
    reflexive-transitive closure of the edge relation;
  * group-id annotation via the left merge and `fillna` (lines 104–110) is
    `withGroup`; the `groupby` aggregation (lines 114–124) is `aggRec`
    (pandas `mean`/`sum` skip missing values, hence the `filterMap`);
  * the final concatenation (lines 138–141) is `clean_duplicates`.
-/

namespace CGIC

set_option maxRecDepth 100000

/-- One ShotSpotter input record: columns `event_id`, `event_time` (minutes),
`geometry` (planar x/y in meters) and `rounds` (`none` models a NaN cell). -/
structure Event where
  id : ℤ
  time : ℚ
  x : ℚ
  y : ℚ
  rounds : Option ℚ
deriving DecidableEq, Repr

/-- One output row of `clean_duplicates`: columns `event_id`, `event_time`,
`mean_rounds`, `total_rounds`, `geometry` (as x/y). -/
structure OutRec where
  event_id : ℤ
  event_time : ℚ
  mean_rounds : Option ℚ
  total_rounds : Option ℚ
  x : ℚ
  y : ℚ
deriving DecidableEq, Repr

/-- Source lines 66–75: the pair filter of the spatial join.  The spatial join
keeps a (left, right) row when the left point lies in the disc of radius
`sb` buffered around the right point (`distance ≤ sb`, stated on squares to
stay in ℚ); `close_filter_space` demands distinct event ids, and
`close_filter_time` demands `|Δt| < tb` minutes (both comparisons strict). -/
def closeB (sb tb : ℚ) (a b : Event) : Bool :=
  decide (a.id ≠ b.id) &&
    decide ((a.x - b.x) ^ 2 + (a.y - b.y) ^ 2 ≤ sb ^ 2) &&
    decide (|a.time - b.time| < tb)

/-- Source lines 56–78: `only_close_events`, the joined rows surviving
`close_filter`.  The join pairs every row of `df` (left) with every buffered
row (right). -/
def closeRows (df : List Event) (sb tb : ℚ) : List (Event × Event) :=
  df.flatMap fun l =>
    df.filterMap fun r => if closeB sb tb l r then some (l, r) else none

/-- Source line 93: the edge list of the closeness graph, one edge
`(event_id, right_event_id)` per surviving joined row. -/
def edgesOf (df : List Event) (sb tb : ℚ) : List (ℤ × ℤ) :=
  (closeRows df sb tb).map fun p => (p.1.id, p.2.id)

/-- Append a vertex to a vertex list unless already present (models adding a
node to the `networkx` graph). -/
def addNode (s : List ℤ) (v : ℤ) : List ℤ :=
  if v ∈ s then s else s ++ [v]

/-- First-occurrence deduplication, as `pandas.Series.unique` (line 90). -/
def uniq (l : List ℤ) : List ℤ := l.foldl addNode []

/-- Source lines 88–93: the node list of the graph — the unique left event
ids, then any further edge endpoints in edge order (`add_edge` inserts
missing endpoints). -/
def graphNodes (df : List Event) (sb tb : ℚ) : List ℤ :=
  (edgesOf df sb tb).foldl (fun s e => addNode (addNode s e.1) e.2)
    (uniq ((closeRows df sb tb).map fun p => p.1.id))

/-- The undirected adjacency relation of the edge list (a `networkx.Graph`
edge joins both endpoints regardless of orientation). -/
def Adj (E : List (ℤ × ℤ)) (a b : ℤ) : Prop := (a, b) ∈ E ∨ (b, a) ∈ E

instance (E : List (ℤ × ℤ)) (a b : ℤ) : Decidable (Adj E a b) := by
  unfold Adj; infer_instance

/-- Reachability in the undirected closeness graph: the reflexive-transitive
closure of adjacency. -/
def Reach (E : List (ℤ × ℤ)) : ℤ → ℤ → Prop := Relation.ReflTransGen (Adj E)

/-- All endpoints occurring in the edge list: a bound on the vertices the
expansion can ever add. -/
def endPts (E : List (ℤ × ℤ)) : List ℤ := E.flatMap fun e => [e.1, e.2]

/-- Endpoints of edges incident to the current vertex set: the vertices one
breadth-first step can add. -/
def newFrom (E : List (ℤ × ℤ)) (s : List ℤ) : List ℤ :=
  (E.filter fun e => decide (e.1 ∈ s) || decide (e.2 ∈ s)).flatMap
    fun e => [e.1, e.2]

/-- One expansion step of the reachable set. -/
def spread (E : List (ℤ × ℤ)) (s : List ℤ) : List ℤ :=
  (newFrom E s).foldl addNode s

/-- All vertices reachable from `v` in the undirected graph with edge list
`E`: iterating `spread` enough times reaches the closure (proved below). -/
def reachFrom (E : List (ℤ × ℤ)) (v : ℤ) : List ℤ :=
  (spread E)^[2 * E.length + 1] [v]

/-- The connected component of `v`, listed in node order. -/
def compOf (E : List (ℤ × ℤ)) (N : List ℤ) (v : ℤ) : List ℤ :=
  N.filter fun w => decide (w ∈ reachFrom E v)

/-- Scan the nodes in order, emitting the component of each node not yet
seen — the iteration order of `networkx.connected_components`. -/
def compsAux (E : List (ℤ × ℤ)) (N : List ℤ) : List ℤ → List ℤ → List (List ℤ)
  | [], _ => []
  | v :: vs, seen =>
      if v ∈ seen then compsAux E N vs seen
      else compOf E N v :: compsAux E N vs (seen ++ compOf E N v)

/-- Source line 105: the connected components of the closeness graph, in
discovery order. -/
def componentsOf (df : List Event) (sb tb : ℚ) : List (List ℤ) :=
  compsAux (edgesOf df sb tb) (graphNodes df sb tb) (graphNodes df sb tb) []

/-- Source lines 104–107: the `group_ids` record list — the component at
position `k` (0-based) contributes one `(event_id, -(k+1))` pair per member,
mirroring `enumerate(..., 1)` with negation. -/
def gpAux : ℕ → List (List ℤ) → List (ℤ × ℤ)
  | _, [] => []
  | k, c :: cs => (c.map fun eid => (eid, -((k : ℤ) + 1))) ++ gpAux (k + 1) cs

/-- The `group_df` lookup table built from all components. -/
def groupPairs (comps : List (List ℤ)) : List (ℤ × ℤ) := gpAux 0 comps

/-- Source lines 109–110: the group id of one event after the left merge and
`fillna` — its component's negative id when it is a graph node, else its own
event id. -/
def tagOf (gp : List (ℤ × ℤ)) (e : Event) : ℤ :=
  (List.lookup e.id gp).getD e.id

/-- Source lines 109–110: `with_group_df`, every input row annotated with its
group id, in input row order. -/
def withGroup (df : List Event) (sb tb : ℚ) : List (Event × ℤ) :=
  df.map fun e => (e, tagOf (groupPairs (componentsOf df sb tb)) e)

/-- Source line 114: `to_group`, the rows with a negative group id. -/
def toGroup (df : List Event) (sb tb : ℚ) : List (Event × ℤ) :=
  (withGroup df sb tb).filter fun p => decide (p.2 < 0)

/-- The group keys of the `groupby` on lines 115–118: the distinct negative
group ids, in ascending order (pandas sorts group keys). -/
def groupKeys (df : List Event) (sb tb : ℚ) : List ℤ :=
  List.insertionSort (· ≤ ·) ((toGroup df sb tb).map Prod.snd).dedup

/-- The input events carrying a given group id. -/
def memberEvents (df : List Event) (sb tb : ℚ) (g : ℤ) : List Event :=
  ((toGroup df sb tb).filter fun p => decide (p.2 = g)).map Prod.fst

/-- Pandas mean with `skipna`: the mean of the present values, `NaN` (here
`none`) when no value is present. -/
def optMean (l : List ℚ) : Option ℚ :=
  if l.isEmpty then none else some (l.sum / l.length)

/-- Source lines 114–128: the aggregated record of one merged group — minimum
time, mean and total of the *present* round counts (pandas `mean` and `sum`
skip NaN), and the unweighted centroid of the member points. -/
def aggRec (df : List Event) (sb tb : ℚ) (g : ℤ) : OutRec :=
  let mems := memberEvents df sb tb g
  { event_id := g
    event_time := ((mems.map Event.time).min?).getD 0
    mean_rounds := optMean (mems.filterMap Event.rounds)
    total_rounds := some (mems.filterMap Event.rounds).sum
    x := (mems.map Event.x).sum / mems.length
    y := (mems.map Event.y).sum / mems.length }

/-- Source lines 131–133: a passthrough record — all original fields, with
`mean_rounds = total_rounds = rounds`. -/
def passRec (e : Event) : OutRec :=
  { event_id := e.id
    event_time := e.time
    mean_rounds := e.rounds
    total_rounds := e.rounds
    x := e.x
    y := e.y }

/-- Source lines 138–141: the returned frame — the passthrough rows (group id
`≥ 0`) in input order, followed by the merged group records in ascending
group-id order (the `groupby` index). -/
def clean_duplicates (df : List Event) (sb tb : ℚ) : List OutRec :=
  (((withGroup df sb tb).filter fun p => decide (0 ≤ p.2)).map fun p =>
      passRec p.1)
    ++ (groupKeys df sb tb).map (aggRec df sb tb)

/-- The group id `clean_duplicates` assigns to one event. -/
def groupOf (df : List Event) (sb tb : ℚ) (e : Event) : ℤ :=
  tagOf (groupPairs (componentsOf df sb tb)) e

/-- The original event ids reachable through the output: a passthrough record
contributes its own id, a merged record the ids of its group's members. -/
def outputIds (df : List Event) (sb tb : ℚ) : List ℤ :=
  (clean_duplicates df sb tb).flatMap fun r =>
    if 0 ≤ r.event_id then [r.event_id]
    else (memberEvents df sb tb r.event_id).map Event.id

/-! ### Concrete inputs used to evaluate the development -/

/-- First member of a merged pair whose partner has a missing rounds cell. -/
def evA : Event := { id := 1, time := 0, x := 0, y := 0, rounds := some 3 }

/-- An event 10 m and 0 min away from `evA` whose `rounds` cell is missing. -/
def evB : Event := { id := 2, time := 0, x := 10, y := 0, rounds := none }

/-- First of two records sharing event id 5. -/
def evC : Event := { id := 5, time := 0, x := 0, y := 0, rounds := some 1 }

/-- Second record with event id 5, far away in space and time. -/
def evD : Event := { id := 5, time := 100, x := 1000, y := 0, rounds := some 2 }

/-- Scenario event 1: time 0 min, location (0, 0), one round. -/
def evOne : Event := { id := 1, time := 0, x := 0, y := 0, rounds := some 1 }

/-- Scenario event 2: one minute later, 10 m east, three rounds. -/
def evTwo : Event := { id := 2, time := 1, x := 10, y := 0, rounds := some 3 }

/-- Scenario event 3: spatially at event 2 but five minutes later. -/
def evThree : Event := { id := 3, time := 5, x := 10, y := 0, rounds := some 2 }

/-- The three-event scenario of the specification: events 1 and 2 merge,
event 3 stays standalone. -/
def demo : List Event := [evOne, evTwo, evThree]

/-- Chain endpoint A at the origin. -/
def chA : Event := { id := 1, time := 0, x := 0, y := 0, rounds := some 1 }

/-- Chain midpoint B, 40 m from A and 40 m from C. -/
def chB : Event := { id := 2, time := 0, x := 40, y := 0, rounds := some 1 }

/-- Chain endpoint C, 80 m from A (outside the 50 m buffer of A). -/
def chC : Event := { id := 3, time := 0, x := 80, y := 0, rounds := some 1 }

/-- A three-event chain: A–B and B–C are close, A–C is not. -/
def chain : List Event := [chA, chB, chC]

/-! ### Basic lemmas on vertex insertion and the pair filter -/

theorem mem_addNode {s : List ℤ} {v a : ℤ} : a ∈ addNode s v ↔ a ∈ s ∨ a = v := by
  by_cases h : v ∈ s
  · simp only [addNode, if_pos h]
    exact ⟨Or.inl, fun hh => hh.elim id fun he => he ▸ h⟩
  · simp [addNode, if_neg h]

theorem addNode_sub {s : List ℤ} {v : ℤ} : s ⊆ addNode s v :=
  fun _ ha => mem_addNode.mpr (Or.inl ha)

theorem addNode_append {s : List ℤ} {v : ℤ} : ∃ t, addNode s v = s ++ t := by
  by_cases h : v ∈ s
  · exact ⟨[], by simp [addNode, if_pos h]⟩
  · exact ⟨[v], by simp [addNode, if_neg h]⟩

theorem addNode_nodup {s : List ℤ} {v : ℤ} (hs : s.Nodup) : (addNode s v).Nodup := by
  by_cases h : v ∈ s
  · simpa [addNode, if_pos h] using hs
  · simp [addNode, if_neg h, List.nodup_append, hs, h]

theorem foldl_addNode_mem : ∀ (l s : List ℤ) (a : ℤ),
    a ∈ l.foldl addNode s ↔ a ∈ s ∨ a ∈ l
  | [], s, a => by simp
  | v :: l, s, a => by
    simp only [List.foldl_cons, foldl_addNode_mem l (addNode s v) a, mem_addNode,
      List.mem_cons]
    tauto

theorem foldl_addNode_append : ∀ (l s : List ℤ), ∃ t, l.foldl addNode s = s ++ t
  | [], s => ⟨[], by simp⟩
  | v :: l, s => by
    obtain ⟨t1, h1⟩ := @addNode_append s v
    obtain ⟨t2, h2⟩ := foldl_addNode_append l (addNode s v)
    exact ⟨t1 ++ t2, by rw [List.foldl_cons, h2, h1, List.append_assoc]⟩

theorem foldl_addNode_nodup : ∀ (l s : List ℤ), s.Nodup → (l.foldl addNode s).Nodup
  | [], _, hs => hs
  | _ :: l, _, hs => foldl_addNode_nodup l _ (addNode_nodup hs)

theorem mem_uniq {l : List ℤ} {a : ℤ} : a ∈ uniq l ↔ a ∈ l := by
  simp [uniq, foldl_addNode_mem]

theorem uniq_nodup {l : List ℤ} : (uniq l).Nodup :=
  foldl_addNode_nodup l [] List.nodup_nil

theorem mem_closeRows {df : List Event} {sb tb : ℚ} {p : Event × Event} :
    p ∈ closeRows df sb tb ↔ p.1 ∈ df ∧ p.2 ∈ df ∧ closeB sb tb p.1 p.2 = true := by
  cases p with
  | mk a b =>
    simp only [closeRows, List.mem_flatMap, List.mem_filterMap]
    constructor
    · rintro ⟨l, hl, r, hr, h⟩
      by_cases hc : closeB sb tb l r
      · rw [if_pos hc] at h
        cases h
        exact ⟨hl, hr, hc⟩
      · rw [if_neg hc] at h
        cases h
    · rintro ⟨ha, hb, hc⟩
      exact ⟨a, ha, b, hb, by rw [if_pos hc]⟩

theorem closeB_eq_true {sb tb : ℚ} {a b : Event} :
    closeB sb tb a b = true ↔
      a.id ≠ b.id ∧ (a.x - b.x) ^ 2 + (a.y - b.y) ^ 2 ≤ sb ^ 2 ∧
        |a.time - b.time| < tb := by
  simp [closeB, and_assoc]

theorem closeB_symm (sb tb : ℚ) (a b : Event) :
    closeB sb tb a b = closeB sb tb b a := by
  unfold closeB
  rw [decide_eq_decide.mpr ne_comm,
    show (a.x - b.x) ^ 2 + (a.y - b.y) ^ 2 = (b.x - a.x) ^ 2 + (b.y - a.y) ^ 2 by
      ring, abs_sub_comm]

theorem mem_graphNodes {df : List Event} {sb tb : ℚ} {v : ℤ} :
    v ∈ graphNodes df sb tb ↔
      ∃ p ∈ closeRows df sb tb, v = p.1.id ∨ v = p.2.id := by
  have hstep : ∀ (E : List (ℤ × ℤ)) (s : List ℤ) (a : ℤ),
      a ∈ E.foldl (fun s e => addNode (addNode s e.1) e.2) s ↔
        a ∈ s ∨ ∃ e ∈ E, a = e.1 ∨ a = e.2 := by
    intro E
    induction E with
    | nil => intro s a; simp
    | cons e E ih =>
      intro s a
      simp only [List.foldl_cons, ih, mem_addNode, List.mem_cons]
      constructor
      · rintro (((h | h) | h) | ⟨f, hf, h⟩)
        · exact Or.inl h
        · exact Or.inr ⟨e, Or.inl rfl, Or.inl h⟩
        · exact Or.inr ⟨e, Or.inl rfl, Or.inr h⟩
        · exact Or.inr ⟨f, Or.inr hf, h⟩
      · rintro (h | ⟨f, (rfl | hf), h⟩)
        · exact Or.inl (Or.inl (Or.inl h))
        · rcases h with h | h
          · exact Or.inl (Or.inl (Or.inr h))
          · exact Or.inl (Or.inr h)
        · exact Or.inr ⟨f, hf, h⟩
  simp only [graphNodes, hstep, mem_uniq, List.mem_map, edgesOf]
  constructor
  · rintro (⟨p, hp, rfl⟩ | ⟨e, ⟨p, hp, rfl⟩, h⟩)
    · exact ⟨p, hp, Or.inl rfl⟩
    · exact ⟨p, hp, h⟩
  · rintro ⟨p, hp, (rfl | rfl)⟩
    · exact Or.inl ⟨p, hp, rfl⟩
    · exact Or.inr ⟨(p.1.id, p.2.id), ⟨p, hp, rfl⟩, Or.inr rfl⟩

theorem graphNodes_nodup (df : List Event) (sb tb : ℚ) :
    (graphNodes df sb tb).Nodup := by
  have hstep : ∀ (E : List (ℤ × ℤ)) (s : List ℤ), s.Nodup →
      (E.foldl (fun s e => addNode (addNode s e.1) e.2) s).Nodup := by
    intro E
    induction E with
    | nil => exact fun _ hs => hs
    | cons e E ih => exact fun s hs => ih _ (addNode_nodup (addNode_nodup hs))
  exact hstep _ _ uniq_nodup

/-! ### Reachability: the iterated expansion computes the closure -/

theorem adj_symm {E : List (ℤ × ℤ)} {a b : ℤ} (h : Adj E a b) : Adj E b a :=
  Or.symm h

theorem reach_symm {E : List (ℤ × ℤ)} {a b : ℤ} (h : Reach E a b) : Reach E b a :=
  Relation.ReflTransGen.symmetric (fun _ _ hadj => adj_symm hadj) h

theorem reach_trans {E : List (ℤ × ℤ)} {a b c : ℤ} (h1 : Reach E a b)
    (h2 : Reach E b c) : Reach E a c :=
  Relation.ReflTransGen.trans h1 h2

theorem mem_newFrom {E : List (ℤ × ℤ)} {s : List ℤ} {a : ℤ} :
    a ∈ newFrom E s ↔ ∃ e ∈ E, (e.1 ∈ s ∨ e.2 ∈ s) ∧ (a = e.1 ∨ a = e.2) := by
  simp only [newFrom, List.mem_flatMap, List.mem_filter, Bool.or_eq_true,
    decide_eq_true_eq, List.mem_cons, List.not_mem_nil, or_false]
  constructor
  · rintro ⟨e, ⟨he, hin⟩, hend⟩
    exact ⟨e, he, hin, hend⟩
  · rintro ⟨e, he, hin, hend⟩
    exact ⟨e, ⟨he, hin⟩, hend⟩

theorem newFrom_sound {E : List (ℤ × ℤ)} {s : List ℤ} {a : ℤ}
    (h : a ∈ newFrom E s) : a ∈ s ∨ ∃ b ∈ s, Adj E b a := by
  obtain ⟨e, he, hin, hend⟩ := mem_newFrom.mp h
  have hE : (e.1, e.2) ∈ E := by rwa [Prod.mk.eta]
  rcases hend with rfl | rfl
  · rcases hin with h1 | h2
    · exact Or.inl h1
    · exact Or.inr ⟨e.2, h2, Or.inr hE⟩
  · rcases hin with h1 | h2
    · exact Or.inr ⟨e.1, h1, Or.inl hE⟩
    · exact Or.inl h2

theorem mem_newFrom_of_edge {E : List (ℤ × ℤ)} {s : List ℤ} {e : ℤ × ℤ}
    (he : e ∈ E) (hin : e.1 ∈ s ∨ e.2 ∈ s) :
    e.1 ∈ newFrom E s ∧ e.2 ∈ newFrom E s :=
  ⟨mem_newFrom.mpr ⟨e, he, hin, Or.inl rfl⟩,
    mem_newFrom.mpr ⟨e, he, hin, Or.inr rfl⟩⟩

theorem mem_spread {E : List (ℤ × ℤ)} {s : List ℤ} {a : ℤ} :
    a ∈ spread E s ↔ a ∈ s ∨ a ∈ newFrom E s := foldl_addNode_mem _ _ _

theorem spread_sub {E : List (ℤ × ℤ)} {s : List ℤ} : s ⊆ spread E s :=
  fun _ ha => mem_spread.mpr (Or.inl ha)

theorem spread_append {E : List (ℤ × ℤ)} {s : List ℤ} :
    ∃ t, spread E s = s ++ t := foldl_addNode_append _ _

theorem spread_nodup {E : List (ℤ × ℤ)} {s : List ℤ} (hs : s.Nodup) :
    (spread E s).Nodup := foldl_addNode_nodup _ _ hs

theorem spread_fixed_closed {E : List (ℤ × ℤ)} {s : List ℤ}
    (hfix : spread E s = s) {b a : ℤ} (hb : b ∈ s) (hadj : Adj E b a) :
    a ∈ s := by
  rcases hadj with hba | hab
  · have h1 := (@mem_newFrom_of_edge E s (b, a) hba (Or.inl hb)).2
    have h2 : a ∈ spread E s := mem_spread.mpr (Or.inr h1)
    rwa [hfix] at h2
  · have h1 := (@mem_newFrom_of_edge E s (a, b) hab (Or.inr hb)).1
    have h2 : a ∈ spread E s := mem_spread.mpr (Or.inr h1)
    rwa [hfix] at h2

theorem iterate_spread_sub {E : List (ℤ × ℤ)} {s : List ℤ} :
    ∀ n, s ⊆ (spread E)^[n] s
  | 0 => fun _ ha => ha
  | n + 1 => by
    rw [Function.iterate_succ_apply']
    exact fun a ha => spread_sub (iterate_spread_sub n ha)

theorem iterate_spread_nodup {E : List (ℤ × ℤ)} {s : List ℤ} (hs : s.Nodup) :
    ∀ n, ((spread E)^[n] s).Nodup
  | 0 => hs
  | n + 1 => by
    rw [Function.iterate_succ_apply']
    exact spread_nodup (iterate_spread_nodup hs n)

theorem endPts_length (E : List (ℤ × ℤ)) : (endPts E).length = 2 * E.length := by
  induction E with
  | nil => simp [endPts]
  | cons e E ih =>
    simp only [endPts, List.flatMap_cons] at ih ⊢
    simp only [List.length_append, ih, List.length_cons, List.length_nil]
    omega

theorem newFrom_sub_endPts {E : List (ℤ × ℤ)} {s : List ℤ} :
    newFrom E s ⊆ endPts E := by
  intro a ha
  obtain ⟨e, he, _, hend⟩ := mem_newFrom.mp ha
  simp only [endPts, List.mem_flatMap]
  exact ⟨e, he, by rcases hend with rfl | rfl <;> simp⟩

theorem iterate_spread_sub_univ {E : List (ℤ × ℤ)} {s : List ℤ} :
    ∀ n, (spread E)^[n] s ⊆ s ++ endPts E
  | 0 => fun _ ha => List.mem_append.mpr (Or.inl ha)
  | n + 1 => by
    rw [Function.iterate_succ_apply']
    intro a ha
    rcases mem_spread.mp ha with h | h
    · exact iterate_spread_sub_univ n h
    · exact List.mem_append.mpr (Or.inr (newFrom_sub_endPts h))

theorem spread_length_lt {E : List (ℤ × ℤ)} {s : List ℤ}
    (h : spread E s ≠ s) : s.length < (spread E s).length := by
  obtain ⟨t, ht⟩ := @spread_append E s
  cases t with
  | nil => exact absurd (by simpa using ht) h
  | cons x t =>
    rw [ht]
    simp only [List.length_append, List.length_cons]
    omega

theorem iterate_growth {E : List (ℤ × ℤ)} {s : List ℤ} :
    ∀ n, (∀ i, i < n → spread E ((spread E)^[i] s) ≠ (spread E)^[i] s) →
      s.length + n ≤ ((spread E)^[n] s).length
  | 0, _ => Nat.le_refl _
  | n + 1, h => by
    have hlt := spread_length_lt (h n (Nat.lt_succ_self n))
    have hle := iterate_growth n fun i hi => h i (Nat.lt_succ_of_lt hi)
    rw [Function.iterate_succ_apply']
    omega

theorem reachFrom_fixed (E : List (ℤ × ℤ)) (v : ℤ) :
    spread E (reachFrom E v) = reachFrom E v := by
  by_contra hne
  rw [reachFrom] at hne
  have hnofix : ∀ i, i < 2 * E.length + 1 →
      spread E ((spread E)^[i] [v]) ≠ (spread E)^[i] [v] := by
    intro i hi hfix
    apply hne
    have hsplit : 2 * E.length + 1 = (2 * E.length + 1 - i) + i := by omega
    have hst : (spread E)^[2 * E.length + 1] [v] = (spread E)^[i] [v] := by
      rw [hsplit, Function.iterate_add_apply]
      exact Function.iterate_fixed hfix _
    rw [hst]
    exact hfix
  have hlow := @iterate_growth E [v] (2 * E.length + 1) hnofix
  have hnodup : ((spread E)^[2 * E.length + 1] [v]).Nodup :=
    iterate_spread_nodup (by simp) _
  have hsub : (spread E)^[2 * E.length + 1] [v] ⊆ [v] ++ endPts E :=
    iterate_spread_sub_univ _
  have hlen := (hnodup.subperm hsub).length_le
  rw [List.length_append, endPts_length] at hlen
  simp only [List.length_singleton] at hlow hlen
  omega

theorem iterate_spread_sound {E : List (ℤ × ℤ)} :
    ∀ (n : ℕ) (s : List ℤ) (a : ℤ), a ∈ (spread E)^[n] s →
      ∃ b ∈ s, Reach E b a
  | 0, _, a, ha => ⟨a, ha, Relation.ReflTransGen.refl⟩
  | n + 1, s, a, ha => by
    rw [Function.iterate_succ_apply] at ha
    obtain ⟨b, hb, hba⟩ := iterate_spread_sound n (spread E s) a ha
    rcases mem_spread.mp hb with h | h
    · exact ⟨b, h, hba⟩
    · rcases newFrom_sound h with h2 | ⟨c, hc, hadj⟩
      · exact ⟨b, h2, hba⟩
      · exact ⟨c, hc, Relation.ReflTransGen.head hadj hba⟩

theorem self_mem_reachFrom (E : List (ℤ × ℤ)) (v : ℤ) : v ∈ reachFrom E v :=
  iterate_spread_sub _ (List.mem_singleton_self v)

theorem reachFrom_closed {E : List (ℤ × ℤ)} {v b a : ℤ}
    (hb : b ∈ reachFrom E v) (hadj : Adj E b a) : a ∈ reachFrom E v :=
  spread_fixed_closed (reachFrom_fixed E v) hb hadj

theorem mem_reachFrom {E : List (ℤ × ℤ)} {v a : ℤ} :
    a ∈ reachFrom E v ↔ Reach E v a := by
  constructor
  · intro h
    obtain ⟨b, hb, hba⟩ := iterate_spread_sound _ _ _ h
    rw [List.mem_singleton] at hb
    exact hb ▸ hba
  · intro h
    induction h with
    | refl => exact self_mem_reachFrom E v
    | tail _ hadj ih => exact reachFrom_closed ih hadj

/-! ### Connected components partition the node list -/

theorem mem_compOf {E : List (ℤ × ℤ)} {N : List ℤ} {v w : ℤ} :
    w ∈ compOf E N v ↔ w ∈ N ∧ Reach E v w := by
  simp [compOf, List.mem_filter, mem_reachFrom]

theorem compOf_sub {E : List (ℤ × ℤ)} {N : List ℤ} {v : ℤ} : compOf E N v ⊆ N :=
  fun _ h => (mem_compOf.mp h).1

theorem compsAux_shape {E : List (ℤ × ℤ)} {N : List ℤ} :
    ∀ (rest seen c : List ℤ), c ∈ compsAux E N rest seen →
      ∃ v, v ∈ rest ∧ v ∉ seen ∧ c = compOf E N v
  | [], _, c, h => by simp [compsAux] at h
  | v :: vs, seen, c, h => by
    by_cases hv : v ∈ seen
    · rw [compsAux, if_pos hv] at h
      obtain ⟨w, hw, hws, hc⟩ := compsAux_shape vs seen c h
      exact ⟨w, List.mem_cons_of_mem _ hw, hws, hc⟩
    · rw [compsAux, if_neg hv] at h
      rcases List.mem_cons.mp h with rfl | h
      · exact ⟨v, List.mem_cons_self v vs, hv, rfl⟩
      · obtain ⟨w, hw, hws, hc⟩ := compsAux_shape vs (seen ++ compOf E N v) c h
        refine ⟨w, List.mem_cons_of_mem _ hw, fun hmem => ?_, hc⟩
        exact hws (List.mem_append.mpr (Or.inl hmem))

theorem compsAux_flatten_perm {E : List (ℤ × ℤ)} {N : List ℤ} (hN : N.Nodup) :
    ∀ (rest seen : List ℤ),
      (∀ w, w ∈ seen → ∀ x, x ∈ N → Reach E w x → x ∈ seen) →
      (∀ w, w ∈ N → w ∉ seen → w ∈ rest) →
      rest ⊆ N →
      List.Perm (compsAux E N rest seen).flatten
        (N.filter fun w => decide (w ∉ seen))
  | [], seen, _, hcover, _ => by
    have hnil : (N.filter fun w => decide (w ∉ seen)) = [] := by
      rw [List.filter_eq_nil_iff]
      intro a ha
      simp only [decide_eq_true_eq, not_not]
      by_contra hns
      exact (List.not_mem_nil a) (hcover a ha hns)
    rw [hnil]
    simp [compsAux]
  | v :: vs, seen, hclosed, hcover, hsub => by
    by_cases hv : v ∈ seen
    · have hcover2 : ∀ w, w ∈ N → w ∉ seen → w ∈ vs := by
        intro w hw hws
        rcases List.mem_cons.mp (hcover w hw hws) with rfl | h
        · exact absurd hv hws
        · exact h
      have hsub2 : vs ⊆ N := fun x hx => hsub (List.mem_cons_of_mem _ hx)
      rw [compsAux, if_pos hv]
      exact compsAux_flatten_perm hN vs seen hclosed hcover2 hsub2
    · have hvN : v ∈ N := hsub (List.mem_cons_self v vs)
      have hdisj : ∀ x, x ∈ compOf E N v → x ∉ seen := by
        intro x hx hxs
        obtain ⟨_, hvx⟩ := mem_compOf.mp hx
        exact hv (hclosed x hxs v hvN (reach_symm hvx))
      have hclosed2 : ∀ w, w ∈ seen ++ compOf E N v → ∀ x, x ∈ N →
          Reach E w x → x ∈ seen ++ compOf E N v := by
        intro w hw x hxN hwx
        rcases List.mem_append.mp hw with h | h
        · exact List.mem_append.mpr (Or.inl (hclosed w h x hxN hwx))
        · obtain ⟨_, hvw⟩ := mem_compOf.mp h
          exact List.mem_append.mpr
            (Or.inr (mem_compOf.mpr ⟨hxN, reach_trans hvw hwx⟩))
      have hcover2 : ∀ w, w ∈ N → w ∉ seen ++ compOf E N v → w ∈ vs := by
        intro w hwN hw
        have hw1 : w ∉ seen := fun h => hw (List.mem_append.mpr (Or.inl h))
        have hw2 : w ∉ compOf E N v := fun h =>
          hw (List.mem_append.mpr (Or.inr h))
        rcases List.mem_cons.mp (hcover w hwN hw1) with rfl | h
        · exact absurd (mem_compOf.mpr ⟨hwN, Relation.ReflTransGen.refl⟩) hw2
        · exact h
      have hsub2 : vs ⊆ N := fun x hx => hsub (List.mem_cons_of_mem _ hx)
      have ih := compsAux_flatten_perm hN vs (seen ++ compOf E N v) hclosed2
        hcover2 hsub2
      have hc_eq : compOf E N v =
          List.filter (fun w => decide (w ∈ reachFrom E v))
            (N.filter fun w => decide (w ∉ seen)) := by
        rw [List.filter_filter, compOf]
        apply List.filter_congr
        intro x hxN
        by_cases hq : x ∈ reachFrom E v
        · have hxc : x ∈ compOf E N v :=
            mem_compOf.mpr ⟨hxN, mem_reachFrom.mp hq⟩
          simp [hq, hdisj x hxc]
        · simp [hq]
      have hs_eq : (N.filter fun w => decide (w ∉ seen ++ compOf E N v)) =
          List.filter (fun w => !decide (w ∈ reachFrom E v))
            (N.filter fun w => decide (w ∉ seen)) := by
        rw [List.filter_filter]
        apply List.filter_congr
        intro x hxN
        by_cases hq : x ∈ reachFrom E v
        · have hxc : x ∈ compOf E N v :=
            mem_compOf.mpr ⟨hxN, mem_reachFrom.mp hq⟩
          simp [hq, List.mem_append, hxc]
        · have hxc : x ∉ compOf E N v := fun h =>
            hq (mem_reachFrom.mpr (mem_compOf.mp h).2)
          by_cases hp : x ∈ seen <;> simp [hq, hp, List.mem_append, hxc]
      rw [compsAux, if_neg hv, List.flatten_cons]
      refine (List.Perm.append_left _ ih).trans ?_
      rw [hs_eq]
      nth_rewrite 1 [hc_eq]
      exact List.filter_append_perm _ _

theorem componentsOf_flatten_perm (df : List Event) (sb tb : ℚ) :
    List.Perm (componentsOf df sb tb).flatten (graphNodes df sb tb) := by
  have h := @compsAux_flatten_perm (edgesOf df sb tb) (graphNodes df sb tb)
    (graphNodes_nodup df sb tb) (graphNodes df sb tb) []
    (fun w hw => absurd hw (List.not_mem_nil w))
    (fun w hw _ => hw) (fun x hx => hx)
  simpa using h

theorem componentsOf_flatten_nodup (df : List Event) (sb tb : ℚ) :
    (componentsOf df sb tb).flatten.Nodup :=
  (componentsOf_flatten_perm df sb tb).symm.nodup (graphNodes_nodup df sb tb)

theorem componentsOf_disjoint (df : List Event) (sb tb : ℚ) :
    List.Pairwise List.Disjoint (componentsOf df sb tb) :=
  ((List.nodup_flatten.mp (componentsOf_flatten_nodup df sb tb))).2

theorem componentsOf_shape {df : List Event} {sb tb : ℚ} {c : List ℤ}
    (hc : c ∈ componentsOf df sb tb) :
    ∃ v, v ∈ graphNodes df sb tb ∧ c = compOf (edgesOf df sb tb)
      (graphNodes df sb tb) v := by
  obtain ⟨v, hv, _, hceq⟩ := compsAux_shape _ _ _ hc
  exact ⟨v, hv, hceq⟩

theorem componentsOf_sub {df : List Event} {sb tb : ℚ} {c : List ℤ}
    (hc : c ∈ componentsOf df sb tb) : c ⊆ graphNodes df sb tb := by
  obtain ⟨v, _, rfl⟩ := componentsOf_shape hc
  exact compOf_sub

theorem componentsOf_nonempty {df : List Event} {sb tb : ℚ} {c : List ℤ}
    (hc : c ∈ componentsOf df sb tb) : ∃ v, v ∈ c := by
  obtain ⟨v, hv, rfl⟩ := componentsOf_shape hc
  exact ⟨v, mem_compOf.mpr ⟨hv, Relation.ReflTransGen.refl⟩⟩

theorem mem_componentsOf_iff_reach {df : List Event} {sb tb : ℚ} {c : List ℤ}
    (hc : c ∈ componentsOf df sb tb) {v : ℤ} (hv : v ∈ c) {w : ℤ} :
    w ∈ c ↔ w ∈ graphNodes df sb tb ∧ Reach (edgesOf df sb tb) v w := by
  obtain ⟨u, _, rfl⟩ := componentsOf_shape hc
  obtain ⟨_, huv⟩ := mem_compOf.mp hv
  constructor
  · intro hw
    obtain ⟨hwN, huw⟩ := mem_compOf.mp hw
    exact ⟨hwN, reach_trans (reach_symm huv) huw⟩
  · intro ⟨hwN, hvw⟩
    exact mem_compOf.mpr ⟨hwN, reach_trans huv hvw⟩

theorem componentsOf_cover {df : List Event} {sb tb : ℚ} {v : ℤ}
    (hv : v ∈ graphNodes df sb tb) : ∃ c ∈ componentsOf df sb tb, v ∈ c := by
  have := (componentsOf_flatten_perm df sb tb).mem_iff.mpr hv
  rw [List.mem_flatten] at this
  obtain ⟨c, hc, hvc⟩ := this
  exact ⟨c, hc, hvc⟩

/-! ### The group-id lookup table -/

theorem lookup_block_of_mem {c : List ℤ} {w : ℤ} (hw : w ∈ c) (g : ℤ)
    (l : List (ℤ × ℤ)) :
    List.lookup w ((c.map fun eid => (eid, g)) ++ l) = some g := by
  induction c with
  | nil => simp at hw
  | cons x c ih =>
    by_cases hx : w = x
    · subst hx
      simp [List.lookup]
    · have hw2 : w ∈ c := by
        rcases List.mem_cons.mp hw with h | h
        · exact absurd h hx
        · exact h
      simp only [List.map_cons, List.cons_append, List.lookup]
      rw [show (w == x) = false from beq_eq_false_iff_ne.mpr hx]
      exact ih hw2

theorem lookup_block_of_not_mem {c : List ℤ} {w : ℤ} (hw : w ∉ c) (g : ℤ)
    (l : List (ℤ × ℤ)) :
    List.lookup w ((c.map fun eid => (eid, g)) ++ l) = List.lookup w l := by
  induction c with
  | nil => simp
  | cons x c ih =>
    have hx : w ≠ x := fun h => hw (h ▸ List.mem_cons_self x c)
    have hw2 : w ∉ c := fun h => hw (List.mem_cons_of_mem _ h)
    simp only [List.map_cons, List.cons_append, List.lookup]
    rw [show (w == x) = false from beq_eq_false_iff_ne.mpr hx]
    exact ih hw2

theorem gpAux_lookup_le : ∀ (cs : List (List ℤ)) (k : ℕ) (w g : ℤ),
    List.lookup w (gpAux k cs) = some g → g ≤ -((k : ℤ) + 1)
  | [], k, w, g, h => by simp [gpAux, List.lookup] at h
  | c :: cs, k, w, g, h => by
    rw [gpAux] at h
    by_cases hw : w ∈ c
    · rw [lookup_block_of_mem hw] at h
      cases h
      omega
    · rw [lookup_block_of_not_mem hw] at h
      have h2 := gpAux_lookup_le cs (k + 1) w g h
      push_cast at h2 ⊢
      omega

theorem gpAux_lookup_none : ∀ (cs : List (List ℤ)) (k : ℕ) (w : ℤ),
    (∀ c ∈ cs, w ∉ c) → List.lookup w (gpAux k cs) = none
  | [], _, _, _ => by simp [gpAux, List.lookup]
  | c :: cs, k, w, h => by
    rw [gpAux, lookup_block_of_not_mem (h c (List.mem_cons_self c cs))]
    exact gpAux_lookup_none cs (k + 1) w fun d hd =>
      h d (List.mem_cons_of_mem _ hd)

theorem gpAux_lookup_some_mem {cs : List (List ℤ)} {k : ℕ} {w g : ℤ}
    (h : List.lookup w (gpAux k cs) = some g) : ∃ c ∈ cs, w ∈ c := by
  by_contra hno
  push_neg at hno
  rw [gpAux_lookup_none cs k w hno] at h
  cases h

theorem gpAux_lookup_iff : ∀ (cs : List (List ℤ)) (k : ℕ),
    List.Pairwise List.Disjoint cs →
    ∀ (i : ℕ) (hi : i < cs.length) (w : ℤ),
      (List.lookup w (gpAux k cs) = some (-((k : ℤ) + (i : ℤ) + 1)) ↔
        w ∈ cs.get ⟨i, hi⟩)
  | [], _, _, i, hi, _ => by simp at hi
  | c :: cs, k, hdisj, i, hi, w => by
    rw [gpAux]
    obtain ⟨hcd, hdisj2⟩ := List.pairwise_cons.mp hdisj
    cases i with
    | zero =>
      show _ ↔ w ∈ c
      by_cases hw : w ∈ c
      · rw [lookup_block_of_mem hw]
        simp only [Option.some.injEq, Nat.cast_zero]
        constructor
        · intro _; exact hw
        · intro _; omega
      · rw [lookup_block_of_not_mem hw]
        constructor
        · intro h
          have h2 := gpAux_lookup_le cs (k + 1) w _ h
          exfalso
          push_cast at h2
          omega
        · intro h
          exact absurd h hw
    | succ j =>
      have hj : j < cs.length := by simpa using hi
      show _ ↔ w ∈ cs.get ⟨j, hj⟩
      by_cases hw : w ∈ c
      · rw [lookup_block_of_mem hw]
        simp only [Option.some.injEq]
        constructor
        · intro h
          exfalso
          push_cast at h
          omega
        · intro h
          exact absurd hw (List.disjoint_right.mp (hcd _ (List.get_mem cs j hj)) h)
      · rw [lookup_block_of_not_mem hw]
        have heq : -((k : ℤ) + ((j + 1 : ℕ) : ℤ) + 1) =
            -(((k + 1 : ℕ) : ℤ) + (j : ℤ) + 1) := by
          push_cast
          ring
        rw [heq]
        exact gpAux_lookup_iff cs (k + 1) hdisj2 j hj w

theorem tagOf_eq_iff_mem {df : List Event} {sb tb : ℚ} {i : ℕ}
    (hi : i < (componentsOf df sb tb).length) {e : Event} (hpos : 0 ≤ e.id) :
    tagOf (groupPairs (componentsOf df sb tb)) e = -((i : ℤ) + 1) ↔
      e.id ∈ (componentsOf df sb tb).get ⟨i, hi⟩ := by
  have hkey := gpAux_lookup_iff (componentsOf df sb tb) 0
    (componentsOf_disjoint df sb tb) i hi e.id
  constructor
  · intro h
    cases hl : List.lookup e.id (groupPairs (componentsOf df sb tb)) with
    | none =>
      rw [tagOf, hl, Option.getD_none] at h
      exfalso
      omega
    | some g =>
      rw [tagOf, hl, Option.getD_some] at h
      subst h
      apply hkey.mp
      have hl2 : List.lookup e.id (gpAux 0 (componentsOf df sb tb)) =
          some (-((i : ℤ) + 1)) := hl
      rw [hl2]
      congr 1
      push_cast
      ring
  · intro h
    have hl : List.lookup e.id (groupPairs (componentsOf df sb tb)) =
        some (-(((0 : ℕ) : ℤ) + (i : ℤ) + 1)) := hkey.mpr h
    rw [tagOf, hl, Option.getD_some]
    push_cast
    ring

theorem tagOf_self_of_no_comp {df : List Event} {sb tb : ℚ} {e : Event}
    (h : ∀ c ∈ componentsOf df sb tb, e.id ∉ c) :
    tagOf (groupPairs (componentsOf df sb tb)) e = e.id := by
  rw [tagOf, groupPairs, gpAux_lookup_none _ _ _ h, Option.getD_none]

theorem tagOf_neg_elim {df : List Event} {sb tb : ℚ} {e : Event}
    (hpos : 0 ≤ e.id)
    (hneg : tagOf (groupPairs (componentsOf df sb tb)) e < 0) :
    ∃ i, ∃ hi : i < (componentsOf df sb tb).length,
      tagOf (groupPairs (componentsOf df sb tb)) e = -((i : ℤ) + 1) ∧
        e.id ∈ (componentsOf df sb tb).get ⟨i, hi⟩ := by
  cases hl : List.lookup e.id (groupPairs (componentsOf df sb tb)) with
  | none =>
    rw [tagOf, hl, Option.getD_none] at hneg
    omega
  | some g =>
    obtain ⟨c, hc, hec⟩ := gpAux_lookup_some_mem
      (show List.lookup e.id (gpAux 0 (componentsOf df sb tb)) = some g from hl)
    obtain ⟨n, hn⟩ := List.mem_iff_get.mp hc
    have hmem : e.id ∈ (componentsOf df sb tb).get n := hn ▸ hec
    refine ⟨n.1, n.2, ?_, hmem⟩
    exact (tagOf_eq_iff_mem n.2 hpos).mpr hmem

/-! ### Group membership and group keys -/

theorem withGroup_eq (df : List Event) (sb tb : ℚ) :
    withGroup df sb tb = df.map fun e => (e, groupOf df sb tb e) := rfl

theorem memberEvents_eq_filter (df : List Event) (sb tb : ℚ) {g : ℤ}
    (hg : g < 0) :
    memberEvents df sb tb g =
      df.filter fun e => decide (groupOf df sb tb e = g) := by
  rw [memberEvents, toGroup, List.filter_filter, withGroup_eq, List.filter_map,
    List.map_map]
  have h2 : df.filter ((fun p : Event × ℤ =>
      decide (p.2 = g) && decide (p.2 < 0)) ∘ fun e => (e, groupOf df sb tb e)) =
      df.filter fun e => decide (groupOf df sb tb e = g) := by
    apply List.filter_congr
    intro e _
    simp only [Function.comp]
    by_cases he : groupOf df sb tb e = g
    · simp [he, hg]
    · simp [he]
  rw [h2]
  have h3 : (Prod.fst ∘ fun e : Event => (e, groupOf df sb tb e)) = id := rfl
  rw [h3, List.map_id]

theorem memberEvents_eq_comp_filter {df : List Event} {sb tb : ℚ} {i : ℕ}
    (hi : i < (componentsOf df sb tb).length)
    (hid : ∀ e ∈ df, 0 ≤ e.id) :
    memberEvents df sb tb (-((i : ℤ) + 1)) =
      df.filter fun e =>
        decide (e.id ∈ (componentsOf df sb tb).get ⟨i, hi⟩) := by
  rw [memberEvents_eq_filter df sb tb (by omega)]
  apply List.filter_congr
  intro e he
  exact decide_eq_decide.mpr (tagOf_eq_iff_mem hi (hid e he))

theorem mem_groupKeys {df : List Event} {sb tb : ℚ} {g : ℤ} :
    g ∈ groupKeys df sb tb ↔ ∃ p ∈ toGroup df sb tb, p.2 = g := by
  rw [groupKeys, (List.perm_insertionSort _ _).mem_iff, List.mem_dedup]
  simp [List.mem_map]

theorem groupKeys_nodup (df : List Event) (sb tb : ℚ) :
    (groupKeys df sb tb).Nodup :=
  (List.perm_insertionSort _ _).symm.nodup (List.nodup_dedup _)

theorem groupKeys_neg {df : List Event} {sb tb : ℚ} {g : ℤ}
    (hg : g ∈ groupKeys df sb tb) : g < 0 := by
  obtain ⟨p, hp, rfl⟩ := mem_groupKeys.mp hg
  exact of_decide_eq_true (List.mem_filter.mp hp).2

theorem groupKeys_elim {df : List Event} {sb tb : ℚ}
    (hid : ∀ e ∈ df, 0 ≤ e.id) {g : ℤ} (hg : g ∈ groupKeys df sb tb) :
    ∃ i, ∃ hi : i < (componentsOf df sb tb).length, g = -((i : ℤ) + 1) := by
  obtain ⟨p, hp, rfl⟩ := mem_groupKeys.mp hg
  obtain ⟨hpw, hneg⟩ := List.mem_filter.mp hp
  rw [withGroup_eq] at hpw
  obtain ⟨e, he, hpe⟩ := List.mem_map.mp hpw
  subst hpe
  obtain ⟨i, hi, htag, _⟩ :=
    @tagOf_neg_elim df sb tb e (hid e he) (of_decide_eq_true hneg)
  exact ⟨i, hi, htag⟩

theorem groupKeys_of_comp {df : List Event} {sb tb : ℚ}
    (hid : ∀ e ∈ df, 0 ≤ e.id) {i : ℕ}
    (hi : i < (componentsOf df sb tb).length) :
    -((i : ℤ) + 1) ∈ groupKeys df sb tb := by
  have hc : (componentsOf df sb tb).get ⟨i, hi⟩ ∈ componentsOf df sb tb :=
    List.get_mem _ _ _
  obtain ⟨v, hv⟩ := componentsOf_nonempty hc
  have hvN : v ∈ graphNodes df sb tb := componentsOf_sub hc hv
  obtain ⟨p, hp, hvid⟩ := mem_graphNodes.mp hvN
  have hpd := mem_closeRows.mp hp
  obtain ⟨e, he, heid⟩ : ∃ e ∈ df, e.id = v := by
    rcases hvid with rfl | rfl
    · exact ⟨p.1, hpd.1, rfl⟩
    · exact ⟨p.2, hpd.2.1, rfl⟩
  have hmem : e.id ∈ (componentsOf df sb tb).get ⟨i, hi⟩ := by
    rw [heid]
    exact hv
  have htag : groupOf df sb tb e = -((i : ℤ) + 1) :=
    (tagOf_eq_iff_mem hi (hid e he)).mpr hmem
  apply mem_groupKeys.mpr
  refine ⟨(e, groupOf df sb tb e), ?_, htag⟩
  rw [toGroup, List.mem_filter]
  constructor
  · rw [withGroup_eq]
    exact List.mem_map_of_mem _ he
  · rw [htag]
    simp
    omega

/-! ### Grouping rows by their key is a permutation of the rows -/

theorem flatMap_congr_on {α β : Type} {l : List α} {f g : α → List β}
    (h : ∀ a ∈ l, f a = g a) : l.flatMap f = l.flatMap g := by
  induction l with
  | nil => rfl
  | cons x xs ih =>
    simp only [List.flatMap_cons, h x (List.mem_cons_self x xs)]
    rw [ih fun a ha => h a (List.mem_cons_of_mem _ ha)]

theorem keys_flatMap_filter_perm {α : Type} (f : α → ℤ) :
    ∀ (l : List α) (keys : List ℤ), keys.Nodup → (∀ a ∈ l, f a ∈ keys) →
      List.Perm (keys.flatMap fun g => l.filter fun a => decide (f a = g)) l
  | [], keys, _, _ => by
    have hz : (keys.flatMap fun g =>
        ([] : List α).filter fun a => decide (f a = g)) =
        keys.flatMap fun _ => ([] : List α) :=
      flatMap_congr_on fun g _ => rfl
    rw [hz]
    simp
  | x :: xs, keys, hnd, hk => by
    have hx : f x ∈ keys := hk x (List.mem_cons_self x xs)
    obtain ⟨s, t, rfl⟩ := List.append_of_mem hx
    have hnds := List.nodup_append.mp hnd
    have hfs : f x ∉ s := by
      intro hmem
      exact (hnds.2.2 hmem) (List.mem_cons_self _ _)
    have hft : f x ∉ t := (List.nodup_cons.mp hnds.2.1).1
    have hs : s.flatMap (fun g => (x :: xs).filter fun a => decide (f a = g)) =
        s.flatMap fun g => xs.filter fun a => decide (f a = g) := by
      apply flatMap_congr_on
      intro g hg
      have hne : ¬(f x = g) := fun h => hfs (h ▸ hg)
      rw [List.filter_cons]
      simp [hne]
    have ht : t.flatMap (fun g => (x :: xs).filter fun a => decide (f a = g)) =
        t.flatMap fun g => xs.filter fun a => decide (f a = g) := by
      apply flatMap_congr_on
      intro g hg
      have hne : ¬(f x = g) := fun h => hft (h ▸ hg)
      rw [List.filter_cons]
      simp [hne]
    have hcenter : ((x :: xs).filter fun a => decide (f a = f x)) =
        x :: (xs.filter fun a => decide (f a = f x)) := by
      rw [List.filter_cons]
      simp
    have hk2 : ∀ a ∈ xs, f a ∈ s ++ f x :: t := fun a ha =>
      hk a (List.mem_cons_of_mem _ ha)
    have ih := keys_flatMap_filter_perm f xs (s ++ f x :: t) hnd hk2
    rw [List.flatMap_append, List.flatMap_cons, hs, ht, hcenter,
      List.cons_append]
    refine List.Perm.trans List.perm_middle ?_
    apply List.Perm.cons x
    rw [List.flatMap_append, List.flatMap_cons] at ih
    exact ih

/-! ### Supporting lemmas about the output records -/

theorem tagOf_of_mem_comp {df : List Event} {sb tb : ℚ} {i : ℕ}
    (hi : i < (componentsOf df sb tb).length) {e : Event}
    (h : e.id ∈ (componentsOf df sb tb).get ⟨i, hi⟩) :
    tagOf (groupPairs (componentsOf df sb tb)) e = -((i : ℤ) + 1) := by
  have hl : List.lookup e.id (groupPairs (componentsOf df sb tb)) =
      some (-(((0 : ℕ) : ℤ) + (i : ℤ) + 1)) :=
    (gpAux_lookup_iff (componentsOf df sb tb) 0
      (componentsOf_disjoint df sb tb) i hi e.id).mpr h
  rw [tagOf, hl, Option.getD_some]
  push_cast
  ring

theorem comp_has_event {df : List Event} {sb tb : ℚ} {i : ℕ}
    (hi : i < (componentsOf df sb tb).length) :
    ∃ e ∈ df, e.id ∈ (componentsOf df sb tb).get ⟨i, hi⟩ := by
  have hc : (componentsOf df sb tb).get ⟨i, hi⟩ ∈ componentsOf df sb tb :=
    List.get_mem _ _ _
  obtain ⟨v, hv⟩ := componentsOf_nonempty hc
  have hvN := componentsOf_sub hc hv
  obtain ⟨p, hp, hvid⟩ := mem_graphNodes.mp hvN
  have hpd := mem_closeRows.mp hp
  rcases hvid with rfl | rfl
  · exact ⟨p.1, hpd.1, hv⟩
  · exact ⟨p.2, hpd.2.1, hv⟩

theorem memberEvents_nonempty {df : List Event} {sb tb : ℚ}
    (hid : ∀ e ∈ df, 0 ≤ e.id) {i : ℕ}
    (hi : i < (componentsOf df sb tb).length) :
    ∃ e, e ∈ memberEvents df sb tb (-((i : ℤ) + 1)) := by
  obtain ⟨e, he, hmem⟩ := comp_has_event hi
  refine ⟨e, ?_⟩
  rw [memberEvents_eq_comp_filter hi hid, List.mem_filter]
  exact ⟨he, decide_eq_true hmem⟩

theorem mem_clean_duplicates {df : List Event} {sb tb : ℚ} {r : OutRec} :
    r ∈ clean_duplicates df sb tb ↔
      (∃ p ∈ withGroup df sb tb, 0 ≤ p.2 ∧ r = passRec p.1) ∨
        ∃ g ∈ groupKeys df sb tb, r = aggRec df sb tb g := by
  rw [clean_duplicates, List.mem_append]
  constructor
  · rintro (h | h)
    · obtain ⟨p, hp, rfl⟩ := List.mem_map.mp h
      obtain ⟨hpw, hples⟩ := List.mem_filter.mp hp
      exact Or.inl ⟨p, hpw, of_decide_eq_true hples, rfl⟩
    · obtain ⟨g, hg, rfl⟩ := List.mem_map.mp h
      exact Or.inr ⟨g, hg, rfl⟩
  · rintro (⟨p, hp, hle, rfl⟩ | ⟨g, hg, rfl⟩)
    · exact Or.inl
        (List.mem_map_of_mem _ (List.mem_filter.mpr ⟨hp, decide_eq_true hle⟩))
    · exact Or.inr (List.mem_map_of_mem _ hg)

theorem aggRec_event_id (df : List Event) (sb tb : ℚ) (g : ℤ) :
    (aggRec df sb tb g).event_id = g := rfl

theorem aggRec_event_time (df : List Event) (sb tb : ℚ) (g : ℤ) :
    (aggRec df sb tb g).event_time =
      (((memberEvents df sb tb g).map Event.time).min?).getD 0 := rfl

theorem aggRec_mean (df : List Event) (sb tb : ℚ) (g : ℤ) :
    (aggRec df sb tb g).mean_rounds =
      optMean ((memberEvents df sb tb g).filterMap Event.rounds) := rfl

theorem aggRec_total (df : List Event) (sb tb : ℚ) (g : ℤ) :
    (aggRec df sb tb g).total_rounds =
      some ((memberEvents df sb tb g).filterMap Event.rounds).sum := rfl

theorem aggRec_x (df : List Event) (sb tb : ℚ) (g : ℤ) :
    (aggRec df sb tb g).x =
      ((memberEvents df sb tb g).map Event.x).sum /
        ((memberEvents df sb tb g).length : ℚ) := rfl

theorem aggRec_y (df : List Event) (sb tb : ℚ) (g : ℤ) :
    (aggRec df sb tb g).y =
      ((memberEvents df sb tb g).map Event.y).sum /
        ((memberEvents df sb tb g).length : ℚ) := rfl

theorem passRec_id_nonneg {df : List Event} {sb tb : ℚ}
    (hid : ∀ e ∈ df, 0 ≤ e.id) {p : Event × ℤ}
    (hp : p ∈ withGroup df sb tb) : 0 ≤ (passRec p.1).event_id := by
  rw [withGroup_eq] at hp
  obtain ⟨e, he, rfl⟩ := List.mem_map.mp hp
  exact hid e he

theorem filterMap_rounds_length {l : List Event}
    (h : ∀ e ∈ l, e.rounds.isSome = true) :
    (l.filterMap Event.rounds).length = l.length := by
  induction l with
  | nil => rfl
  | cons e l ih =>
    obtain ⟨v, hv⟩ := Option.isSome_iff_exists.mp (h e (List.mem_cons_self e l))
    rw [List.filterMap_cons, hv]
    simp only [List.length_cons]
    rw [ih fun x hx => h x (List.mem_cons_of_mem _ hx)]

theorem two_le_length_of_two_mem {α : Type} {l : List α} {a b : α}
    (ha : a ∈ l) (hb : b ∈ l) (hab : a ≠ b) : 2 ≤ l.length := by
  cases l with
  | nil => simp at ha
  | cons x t =>
    cases t with
    | nil =>
      simp only [List.mem_singleton] at ha hb
      exact absurd (ha.trans hb.symm) hab
    | cons y u =>
      simp only [List.length_cons]
      omega

theorem flatMap_singleton_eq_map {α β : Type} (f : α → β) (l : List α) :
    (l.flatMap fun a => [f a]) = l.map f := by
  induction l with
  | nil => rfl
  | cons x xs ih => simp only [List.flatMap_cons, ih, List.map_cons,
      List.singleton_append]

/-! ### Claim theorems -/

/-- C5: the duplicate-candidate relation actually used for graph construction
is symmetric — `(a, b)` survives the joined filters iff `(b, a)` does, because
the distance, the squared-coordinate test and the absolute time difference are
all symmetric; hence the partition does not depend on pair orientation. -/
theorem closeRows_symmetric (df : List Event) (sb tb : ℚ) (a b : Event) :
    (a, b) ∈ closeRows df sb tb ↔ (b, a) ∈ closeRows df sb tb := by
  rw [mem_closeRows, mem_closeRows]
  constructor
  · rintro ⟨ha, hb, hc⟩
    exact ⟨hb, ha, closeB_symm sb tb a b ▸ hc⟩
  · rintro ⟨hb, ha, hc⟩
    exact ⟨ha, hb, closeB_symm sb tb b a ▸ hc⟩

/-- C2: a pair (A, B) of input events is retained as a duplicate-candidate
pair by `clean_duplicates` iff the ids differ, the Euclidean distance between
the two locations is at most `spatial_buffer` (containment in the closed
buffered disc), and the absolute time difference is strictly below
`temporal_buffer` minutes. -/
theorem candidate_pair_iff (df : List Event) (sb tb : ℚ) (hs : 0 ≤ sb)
    (a b : Event) (ha : a ∈ df) (hb : b ∈ df) :
    ((a, b) ∈ closeRows df sb tb ↔
      a.id ≠ b.id ∧
        Real.sqrt (((a.x - b.x) ^ 2 + (a.y - b.y) ^ 2 : ℚ)) ≤ (sb : ℝ) ∧
        |a.time - b.time| < tb) := by
  have hsq : ((a.x - b.x) ^ 2 + (a.y - b.y) ^ 2 ≤ sb ^ 2) ↔
      Real.sqrt (((a.x - b.x) ^ 2 + (a.y - b.y) ^ 2 : ℚ)) ≤ (sb : ℝ) := by
    constructor
    · intro h
      have hcast : (((a.x - b.x) ^ 2 + (a.y - b.y) ^ 2 : ℚ) : ℝ) ≤
          (sb : ℝ) ^ 2 := by
        exact_mod_cast h
      calc Real.sqrt (((a.x - b.x) ^ 2 + (a.y - b.y) ^ 2 : ℚ))
          ≤ Real.sqrt ((sb : ℝ) ^ 2) := Real.sqrt_le_sqrt hcast
        _ = (sb : ℝ) := Real.sqrt_sq (by exact_mod_cast hs)
    · intro h
      have hd : (0 : ℝ) ≤ (((a.x - b.x) ^ 2 + (a.y - b.y) ^ 2 : ℚ) : ℝ) := by
        positivity
      have h2 : (((a.x - b.x) ^ 2 + (a.y - b.y) ^ 2 : ℚ) : ℝ) ≤
          (sb : ℝ) ^ 2 := by
        calc (((a.x - b.x) ^ 2 + (a.y - b.y) ^ 2 : ℚ) : ℝ)
            = Real.sqrt (((a.x - b.x) ^ 2 + (a.y - b.y) ^ 2 : ℚ)) ^ 2 :=
              (Real.sq_sqrt hd).symm
          _ ≤ (sb : ℝ) ^ 2 := pow_le_pow_left (Real.sqrt_nonneg _) h 2
      exact_mod_cast h2
  rw [mem_closeRows]
  simp only [ha, hb, true_and]
  rw [closeB_eq_true, hsq]

/-- C4: if A–B and B–C each pass the closeness test while A–C does not
directly, `clean_duplicates` still assigns all three events one common
(negative) group id — grouping is by graph connectivity, and the chain
argument below extends to paths of any length through `Reach`. -/
theorem transitive_merge (df : List Event) (sb tb : ℚ) (a b c : Event)
    (ha : a ∈ df) (hb : b ∈ df) (hc : c ∈ df)
    (hab : closeB sb tb a b = true) (hbc : closeB sb tb b c = true)
    (hac : closeB sb tb a c = false) :
    groupOf df sb tb a = groupOf df sb tb b ∧
      groupOf df sb tb b = groupOf df sb tb c ∧ groupOf df sb tb a < 0 := by
  have rowab : (a, b) ∈ closeRows df sb tb := mem_closeRows.mpr ⟨ha, hb, hab⟩
  have rowbc : (b, c) ∈ closeRows df sb tb := mem_closeRows.mpr ⟨hb, hc, hbc⟩
  have haN : a.id ∈ graphNodes df sb tb :=
    mem_graphNodes.mpr ⟨(a, b), rowab, Or.inl rfl⟩
  have hbN : b.id ∈ graphNodes df sb tb :=
    mem_graphNodes.mpr ⟨(a, b), rowab, Or.inr rfl⟩
  have hcN : c.id ∈ graphNodes df sb tb :=
    mem_graphNodes.mpr ⟨(b, c), rowbc, Or.inr rfl⟩
  have eab : (a.id, b.id) ∈ edgesOf df sb tb := List.mem_map_of_mem _ rowab
  have ebc : (b.id, c.id) ∈ edgesOf df sb tb := List.mem_map_of_mem _ rowbc
  have hreach_ab : Reach (edgesOf df sb tb) a.id b.id :=
    Relation.ReflTransGen.single (Or.inl eab)
  have hreach_bc : Reach (edgesOf df sb tb) b.id c.id :=
    Relation.ReflTransGen.single (Or.inl ebc)
  obtain ⟨c0, hc0, haid⟩ := componentsOf_cover haN
  have hbid : b.id ∈ c0 :=
    (mem_componentsOf_iff_reach hc0 haid).mpr ⟨hbN, hreach_ab⟩
  have hcid : c.id ∈ c0 :=
    (mem_componentsOf_iff_reach hc0 haid).mpr
      ⟨hcN, reach_trans hreach_ab hreach_bc⟩
  obtain ⟨⟨i, hi⟩, hn⟩ := List.mem_iff_get.mp hc0
  have hga : groupOf df sb tb a = -((i : ℤ) + 1) :=
    tagOf_of_mem_comp hi (by rw [hn]; exact haid)
  have hgb : groupOf df sb tb b = -((i : ℤ) + 1) :=
    tagOf_of_mem_comp hi (by rw [hn]; exact hbid)
  have hgc : groupOf df sb tb c = -((i : ℤ) + 1) :=
    tagOf_of_mem_comp hi (by rw [hn]; exact hcid)
  refine ⟨hga.trans hgb.symm, hgb.trans hgc.symm, ?_⟩
  rw [hga]
  omega

/-- C6: merged groups receive the negative ids −1, −2, … of a decrementing
counter over component discovery order; within one run these ids are pairwise
distinct, there are exactly as many as components, and they cannot collide
with the (non-negative) input ids, while each passthrough record keeps its
original event id. -/
theorem group_id_assignment (df : List Event) (sb tb : ℚ)
    (hid : ∀ e ∈ df, 0 ≤ e.id) :
    ((((clean_duplicates df sb tb).filter fun r => decide (r.event_id < 0)).map
        OutRec.event_id).Nodup) ∧
      (((clean_duplicates df sb tb).filter fun r =>
          decide (r.event_id < 0)).length = (componentsOf df sb tb).length) ∧
      (∀ r ∈ clean_duplicates df sb tb, r.event_id < 0 →
        ∃ i, i < (componentsOf df sb tb).length ∧
          r.event_id = -((i : ℤ) + 1)) ∧
      (∀ r ∈ clean_duplicates df sb tb, 0 ≤ r.event_id →
        ∃ e ∈ df, r = passRec e) := by
  have hfilter : ((clean_duplicates df sb tb).filter fun r =>
      decide (r.event_id < 0)) = (groupKeys df sb tb).map (aggRec df sb tb) := by
    rw [clean_duplicates, List.filter_append]
    have h1 : ((((withGroup df sb tb).filter fun p => decide (0 ≤ p.2)).map
        fun p => passRec p.1).filter fun r => decide (r.event_id < 0)) = [] := by
      rw [List.filter_eq_nil_iff]
      intro r hrr
      obtain ⟨p, hp, rfl⟩ := List.mem_map.mp hrr
      have := passRec_id_nonneg hid (List.mem_filter.mp hp).1
      simp only [decide_eq_true_eq]
      omega
    have h2 : (((groupKeys df sb tb).map (aggRec df sb tb)).filter fun r =>
        decide (r.event_id < 0)) =
        (groupKeys df sb tb).map (aggRec df sb tb) := by
      rw [List.filter_eq_self]
      intro r hrr
      obtain ⟨g, hg, rfl⟩ := List.mem_map.mp hrr
      exact decide_eq_true (by rw [aggRec_event_id]; exact groupKeys_neg hg)
    rw [h1, h2, List.nil_append]
  have hmapid : (((groupKeys df sb tb).map (aggRec df sb tb)).map
      OutRec.event_id) = groupKeys df sb tb := by
    rw [List.map_map]
    have hcomp : (OutRec.event_id ∘ aggRec df sb tb) = id := rfl
    rw [hcomp, List.map_id]
  have hgidnodup : ((List.range (componentsOf df sb tb).length).map
      fun i : ℕ => -((i : ℤ) + 1)).Nodup := by
    refine List.Nodup.map ?_ (List.nodup_range _)
    intro i j hij
    have hij2 : -((i : ℤ) + 1) = -((j : ℤ) + 1) := hij
    omega
  have hperm : List.Perm (groupKeys df sb tb)
      ((List.range (componentsOf df sb tb).length).map
        fun i : ℕ => -((i : ℤ) + 1)) := by
    refine (List.perm_ext_iff_of_nodup (groupKeys_nodup df sb tb)
      hgidnodup).mpr ?_
    intro g
    constructor
    · intro hg
      obtain ⟨i, hi, rfl⟩ := groupKeys_elim hid hg
      exact List.mem_map.mpr ⟨i, List.mem_range.mpr hi, rfl⟩
    · intro hg
      obtain ⟨i, hi, rfl⟩ := List.mem_map.mp hg
      exact groupKeys_of_comp hid (List.mem_range.mp hi)
  refine ⟨?_, ?_, ?_, ?_⟩
  · rw [hfilter, hmapid]
    exact groupKeys_nodup df sb tb
  · rw [hfilter, List.length_map, hperm.length_eq, List.length_map,
      List.length_range]
  · intro r hr hneg
    rcases mem_clean_duplicates.mp hr with ⟨p, hp, _, rfl⟩ | ⟨g, hg, rfl⟩
    · exact absurd hneg (by have := passRec_id_nonneg hid hp; omega)
    · obtain ⟨i, hi, hgi⟩ := groupKeys_elim hid hg
      exact ⟨i, hi, by rw [aggRec_event_id, hgi]⟩
  · intro r hr hle
    rcases mem_clean_duplicates.mp hr with ⟨p, hp, _, rfl⟩ | ⟨g, hg, rfl⟩
    · rw [withGroup_eq] at hp
      obtain ⟨e, he, rfl⟩ := List.mem_map.mp hp
      exact ⟨e, he, rfl⟩
    · exact absurd hle (by
        have := groupKeys_neg hg
        rw [aggRec_event_id]
        omega)

/-- C9: under unique non-negative input ids every merged output record
aggregates at least two input events — every graph node is an endpoint of an
edge with distinct endpoints, so no component (and hence no merged group) is
a singleton. -/
theorem merged_group_min_size (df : List Event) (sb tb : ℚ)
    (hid : ∀ e ∈ df, 0 ≤ e.id) (hnd : (df.map Event.id).Nodup) :
    ∀ r ∈ clean_duplicates df sb tb, r.event_id < 0 →
      2 ≤ (memberEvents df sb tb r.event_id).length := by
  intro r hr hneg
  rcases mem_clean_duplicates.mp hr with ⟨p, hp, _, rfl⟩ | ⟨g, hg, rfl⟩
  · exact absurd hneg (by have := passRec_id_nonneg hid hp; omega)
  · obtain ⟨i, hi, rfl⟩ := groupKeys_elim hid hg
    rw [aggRec_event_id, memberEvents_eq_comp_filter hi hid]
    have hcm : (componentsOf df sb tb).get ⟨i, hi⟩ ∈ componentsOf df sb tb :=
      List.get_mem _ _ _
    obtain ⟨v, hv⟩ := componentsOf_nonempty hcm
    have hvN := componentsOf_sub hcm hv
    obtain ⟨p0, hp0, hvid⟩ := mem_graphNodes.mp hvN
    have hpd := mem_closeRows.mp hp0
    have hne : p0.1.id ≠ p0.2.id := (closeB_eq_true.mp hpd.2.2).1
    have h1N : p0.1.id ∈ graphNodes df sb tb :=
      mem_graphNodes.mpr ⟨p0, hp0, Or.inl rfl⟩
    have h2N : p0.2.id ∈ graphNodes df sb tb :=
      mem_graphNodes.mpr ⟨p0, hp0, Or.inr rfl⟩
    have hedge : (p0.1.id, p0.2.id) ∈ edgesOf df sb tb :=
      List.mem_map_of_mem _ hp0
    have hboth : p0.1.id ∈ (componentsOf df sb tb).get ⟨i, hi⟩ ∧
        p0.2.id ∈ (componentsOf df sb tb).get ⟨i, hi⟩ := by
      rcases hvid with rfl | rfl
      · exact ⟨hv, (mem_componentsOf_iff_reach hcm hv).mpr
          ⟨h2N, Relation.ReflTransGen.single (Or.inl hedge)⟩⟩
      · exact ⟨(mem_componentsOf_iff_reach hcm hv).mpr
          ⟨h1N, Relation.ReflTransGen.single (adj_symm (Or.inl hedge))⟩, hv⟩
    have hm1 : p0.1 ∈ df.filter fun e =>
        decide (e.id ∈ (componentsOf df sb tb).get ⟨i, hi⟩) :=
      List.mem_filter.mpr ⟨hpd.1, decide_eq_true hboth.1⟩
    have hm2 : p0.2 ∈ df.filter fun e =>
        decide (e.id ∈ (componentsOf df sb tb).get ⟨i, hi⟩) :=
      List.mem_filter.mpr ⟨hpd.2.1, decide_eq_true hboth.2⟩
    exact two_le_length_of_two_mem hm1 hm2 fun h => hne (by rw [h])

/-- C10: the output list is the passthrough records first — in input row
order, since they arise by filtering the annotated input — followed by all
merged records; being a pure function of the input and parameters, the
ordering is deterministic. -/
theorem output_order (df : List Event) (sb tb : ℚ)
    (hid : ∀ e ∈ df, 0 ≤ e.id) :
    ∃ s m, clean_duplicates df sb tb = s ++ m ∧
      (∀ r ∈ s, 0 ≤ r.event_id) ∧ (∀ r ∈ m, r.event_id < 0) ∧
      List.Sublist (s.map OutRec.event_id) (df.map Event.id) := by
  refine ⟨_, _, rfl, ?_, ?_, ?_⟩
  · intro r hrr
    obtain ⟨p, hp, rfl⟩ := List.mem_map.mp hrr
    exact passRec_id_nonneg hid (List.mem_filter.mp hp).1
  · intro r hrr
    obtain ⟨g, hg, rfl⟩ := List.mem_map.mp hrr
    rw [aggRec_event_id]
    exact groupKeys_neg hg
  · have hmm : ((((withGroup df sb tb).filter fun p => decide (0 ≤ p.2)).map
        fun p => passRec p.1).map OutRec.event_id) =
        (((withGroup df sb tb).filter fun p => decide (0 ≤ p.2)).map
          fun p => p.1.id) := by
      rw [List.map_map]
      rfl
    have hw : (withGroup df sb tb).map (fun p : Event × ℤ => p.1.id) =
        df.map Event.id := by
      rw [withGroup_eq, List.map_map]
      rfl
    rw [hmm, ← hw]
    exact List.Sublist.map _ (List.filter_sublist _)

/-- C7 (amended): `clean_duplicates` does not fail on a missing rounds value;
mirroring the pandas skipna semantics of `mean` and `sum`, a missing value is
simply skipped — `total_rounds` sums only the present values and
`mean_rounds` averages only the present values (`none` when none are). -/
theorem missing_rounds_skipped (df : List Event) (sb tb : ℚ)
    (hid : ∀ e ∈ df, 0 ≤ e.id) :
    ∀ r ∈ clean_duplicates df sb tb, r.event_id < 0 →
      r.total_rounds =
        some ((memberEvents df sb tb r.event_id).filterMap Event.rounds).sum ∧
      r.mean_rounds =
        optMean ((memberEvents df sb tb r.event_id).filterMap Event.rounds) := by
  intro r hr hneg
  rcases mem_clean_duplicates.mp hr with ⟨p, hp, _, rfl⟩ | ⟨g, hg, rfl⟩
  · exact absurd hneg (by have := passRec_id_nonneg hid hp; omega)
  · constructor
    · rw [aggRec_total, aggRec_event_id]
    · rw [aggRec_mean, aggRec_event_id]

/-- C1: every connected component yields one merged output record whose time
is the minimum of the member events' times, whose total and mean rounds are
the sum and the unweighted mean of the member round counts, and whose
location is the unweighted centroid of the member coordinates. -/
theorem merged_record_aggregates (df : List Event) (sb tb : ℚ)
    (hid : ∀ e ∈ df, 0 ≤ e.id) (hnd : (df.map Event.id).Nodup)
    (hr : ∀ e ∈ df, e.rounds.isSome = true) :
    ∀ c ∈ componentsOf df sb tb,
      ∃ r ∈ clean_duplicates df sb tb, r.event_id < 0 ∧
        ((df.filter fun e => decide (e.id ∈ c)).map Event.time).min? =
          some r.event_time ∧
        r.total_rounds =
          some ((df.filter fun e => decide (e.id ∈ c)).filterMap
            Event.rounds).sum ∧
        r.mean_rounds =
          some (((df.filter fun e => decide (e.id ∈ c)).filterMap
            Event.rounds).sum /
            ((df.filter fun e => decide (e.id ∈ c)).length : ℚ)) ∧
        r.x = ((df.filter fun e => decide (e.id ∈ c)).map Event.x).sum /
            ((df.filter fun e => decide (e.id ∈ c)).length : ℚ) ∧
        r.y = ((df.filter fun e => decide (e.id ∈ c)).map Event.y).sum /
            ((df.filter fun e => decide (e.id ∈ c)).length : ℚ) := by
  intro c hc
  obtain ⟨⟨i, hi⟩, hn⟩ := List.mem_iff_get.mp hc
  have hmem : memberEvents df sb tb (-((i : ℤ) + 1)) =
      df.filter fun e => decide (e.id ∈ c) := by
    rw [memberEvents_eq_comp_filter hi hid]
    apply List.filter_congr
    intro e _
    rw [hn]
  obtain ⟨e0, he0⟩ := memberEvents_nonempty hid hi
  have hFne : (df.filter fun e => decide (e.id ∈ c)) ≠ [] := by
    intro hnil
    rw [hmem, hnil] at he0
    exact List.not_mem_nil e0 he0
  have hkey := groupKeys_of_comp hid hi
  refine ⟨aggRec df sb tb (-((i : ℤ) + 1)), ?_, ?_, ?_, ?_, ?_, ?_, ?_⟩
  · rw [clean_duplicates]
    exact List.mem_append.mpr (Or.inr (List.mem_map_of_mem _ hkey))
  · rw [aggRec_event_id]
    omega
  · rw [aggRec_event_time, hmem]
    cases hmin : ((df.filter fun e => decide (e.id ∈ c)).map Event.time).min?
      with
    | none =>
      rw [List.min?_eq_none_iff] at hmin
      exact absurd (List.map_eq_nil_iff.mp hmin) hFne
    | some m => rfl
  · rw [aggRec_total, hmem]
  · rw [aggRec_mean, hmem]
    have hlen : ((df.filter fun e => decide (e.id ∈ c)).filterMap
        Event.rounds).length =
        (df.filter fun e => decide (e.id ∈ c)).length :=
      filterMap_rounds_length fun e he => hr e (List.mem_of_mem_filter he)
    have hne2 : ¬((df.filter fun e => decide (e.id ∈ c)).filterMap
        Event.rounds).isEmpty = true := by
      rw [List.isEmpty_iff]
      intro hnil
      have hlz := congrArg List.length hnil
      rw [hlen] at hlz
      simp only [List.length_nil] at hlz
      exact hFne (List.length_eq_zero.mp hlz)
    rw [optMean, if_neg hne2, hlen]
  · rw [aggRec_x, hmem]
  · rw [aggRec_y, hmem]

/-- C3: on valid input (unique, non-negative ids) the output accounts for
every input event exactly once — collecting each passthrough id and the
member ids of each merged group yields a permutation of the input id list,
hence equal counts. -/
theorem partition_complete (df : List Event) (sb tb : ℚ)
    (hid : ∀ e ∈ df, 0 ≤ e.id) (hnd : (df.map Event.id).Nodup) :
    List.Perm (outputIds df sb tb) (df.map Event.id) ∧
      (outputIds df sb tb).length = df.length := by
  have hperm : List.Perm (outputIds df sb tb) (df.map Event.id) := by
    rw [outputIds, clean_duplicates, List.flatMap_append]
    have hsingles : ((((withGroup df sb tb).filter fun p =>
        decide (0 ≤ p.2)).map fun p => passRec p.1).flatMap fun r =>
          if 0 ≤ r.event_id then [r.event_id]
          else (memberEvents df sb tb r.event_id).map Event.id) =
        (((withGroup df sb tb).filter fun p => decide (0 ≤ p.2)).map
          fun p => p.1.id) := by
      rw [List.flatMap_map]
      have hcongr : ∀ p ∈ (withGroup df sb tb).filter fun p =>
          decide (0 ≤ p.2),
          (if 0 ≤ (passRec p.1).event_id then [(passRec p.1).event_id]
            else (memberEvents df sb tb (passRec p.1).event_id).map Event.id) =
          [p.1.id] := by
        intro p hp
        rw [if_pos (passRec_id_nonneg hid (List.mem_filter.mp hp).1)]
        rfl
      rw [flatMap_congr_on hcongr]
      exact flatMap_singleton_eq_map _ _
    have hmerged : (((groupKeys df sb tb).map (aggRec df sb tb)).flatMap
        fun r => if 0 ≤ r.event_id then [r.event_id]
          else (memberEvents df sb tb r.event_id).map Event.id) =
        (groupKeys df sb tb).flatMap fun g =>
          (memberEvents df sb tb g).map Event.id := by
      rw [List.flatMap_map]
      apply flatMap_congr_on
      intro g hg
      rw [if_neg (by
        rw [aggRec_event_id]
        have := groupKeys_neg hg
        omega)]
      rfl
    rw [hsingles, hmerged]
    have hkeysperm : List.Perm ((groupKeys df sb tb).flatMap fun g =>
        (toGroup df sb tb).filter fun p => decide (p.2 = g))
        (toGroup df sb tb) :=
      keys_flatMap_filter_perm Prod.snd (toGroup df sb tb) (groupKeys df sb tb)
        (groupKeys_nodup df sb tb) fun p hp => mem_groupKeys.mpr ⟨p, hp, rfl⟩
    have hmE : ((groupKeys df sb tb).flatMap fun g =>
        (memberEvents df sb tb g).map Event.id) =
        List.map (fun p : Event × ℤ => p.1.id)
          ((groupKeys df sb tb).flatMap fun g =>
            (toGroup df sb tb).filter fun p => decide (p.2 = g)) := by
      rw [List.map_flatMap]
      apply flatMap_congr_on
      intro g _
      rw [memberEvents, List.map_map]
      rfl
    rw [hmE]
    have h2 := hkeysperm.map (fun p : Event × ℤ => p.1.id)
    refine (List.Perm.append_left _ h2).trans ?_
    have hflip : toGroup df sb tb =
        (withGroup df sb tb).filter fun p => !decide (0 ≤ p.2) := by
      rw [toGroup]
      apply List.filter_congr
      intro p _
      by_cases h : 0 ≤ p.2
      · rw [decide_eq_true h, Bool.not_true]
        exact decide_eq_false (by omega)
      · rw [decide_eq_false h, Bool.not_false]
        exact decide_eq_true (by omega)
    rw [hflip, ← List.map_append]
    have h3 := (List.filter_append_perm
      (fun p : Event × ℤ => decide (0 ≤ p.2)) (withGroup df sb tb)).map
      (fun p : Event × ℤ => p.1.id)
    refine h3.trans ?_
    have h4 : (withGroup df sb tb).map (fun p : Event × ℤ => p.1.id) =
        df.map Event.id := by
      rw [withGroup_eq, List.map_map]
      rfl
    rw [h4]
  refine ⟨hperm, ?_⟩
  rw [hperm.length_eq, List.length_map]

/-! ### Counterexamples and concrete witnesses -/

/-- C7 counterexample: on a merged pair whose second member has a missing
rounds cell, `clean_duplicates` does not fail — it returns a merged record in
which the missing value was silently skipped (`mean_rounds = total_rounds =
3`, the one present value), exactly the pandas skipna behaviour the claim
says is rejected. -/
theorem missing_rounds_not_rejected :
    clean_duplicates [evA, evB] 50 2 =
      [{ event_id := -1, event_time := 0, mean_rounds := some 3,
         total_rounds := some 3, x := 5, y := 0 }] := by
  with_unfolding_all decide

/-- C8 counterexample: two distinct records sharing event id 5 are not
rejected — the pipeline runs and returns one output record per input row. -/
theorem duplicate_ids_not_rejected :
    clean_duplicates [evC, evD] 50 2 = [passRec evC, passRec evD] := by
  with_unfolding_all decide

/-- C8 (amended): `clean_duplicates` performs no duplicate-id validation; on
input records sharing an id it processes both rows, and each keeps the shared
id in the output. -/
theorem duplicate_ids_processed :
    (clean_duplicates [evC, evD] 50 2).map OutRec.event_id = [5, 5] := by
  with_unfolding_all decide

/-- Witness: C1 instantiated on the three-event scenario, hypotheses
discharged by evaluation. -/
theorem merged_record_aggregates_witness :
    (∀ e ∈ demo, 0 ≤ e.id) ∧ (demo.map Event.id).Nodup ∧
      (∀ e ∈ demo, e.rounds.isSome = true) ∧
      ∀ c ∈ componentsOf demo 50 2,
        ∃ r ∈ clean_duplicates demo 50 2, r.event_id < 0 ∧
          ((demo.filter fun e => decide (e.id ∈ c)).map Event.time).min? =
            some r.event_time ∧
          r.total_rounds =
            some ((demo.filter fun e => decide (e.id ∈ c)).filterMap
              Event.rounds).sum ∧
          r.mean_rounds =
            some (((demo.filter fun e => decide (e.id ∈ c)).filterMap
              Event.rounds).sum /
              ((demo.filter fun e => decide (e.id ∈ c)).length : ℚ)) ∧
          r.x = ((demo.filter fun e => decide (e.id ∈ c)).map Event.x).sum /
              ((demo.filter fun e => decide (e.id ∈ c)).length : ℚ) ∧
          r.y = ((demo.filter fun e => decide (e.id ∈ c)).map Event.y).sum /
              ((demo.filter fun e => decide (e.id ∈ c)).length : ℚ) :=
  ⟨by with_unfolding_all decide, by with_unfolding_all decide,
    by with_unfolding_all decide,
    merged_record_aggregates demo 50 2 (by with_unfolding_all decide)
      (by with_unfolding_all decide) (by with_unfolding_all decide)⟩

/-- Witness: C2 instantiated on the scenario pair (events 1 and 2). -/
theorem candidate_pair_iff_witness :
    (0 : ℚ) ≤ 50 ∧ evOne ∈ demo ∧ evTwo ∈ demo ∧
      ((evOne, evTwo) ∈ closeRows demo 50 2 ↔
        evOne.id ≠ evTwo.id ∧
          Real.sqrt (((evOne.x - evTwo.x) ^ 2 + (evOne.y - evTwo.y) ^ 2 :
            ℚ)) ≤ ((50 : ℚ) : ℝ) ∧
          |evOne.time - evTwo.time| < 2) :=
  ⟨by with_unfolding_all decide, by with_unfolding_all decide,
    by with_unfolding_all decide,
    candidate_pair_iff demo 50 2 (by with_unfolding_all decide) evOne evTwo
      (by with_unfolding_all decide) (by with_unfolding_all decide)⟩

/-- Witness: C3 instantiated on the three-event scenario. -/
theorem partition_complete_witness :
    (∀ e ∈ demo, 0 ≤ e.id) ∧ (demo.map Event.id).Nodup ∧
      (List.Perm (outputIds demo 50 2) (demo.map Event.id) ∧
        (outputIds demo 50 2).length = demo.length) :=
  ⟨by with_unfolding_all decide, by with_unfolding_all decide,
    partition_complete demo 50 2 (by with_unfolding_all decide)
      (by with_unfolding_all decide)⟩

/-- Witness: C4 instantiated on the 0 m – 40 m – 80 m chain. -/
theorem transitive_merge_witness :
    chA ∈ chain ∧ chB ∈ chain ∧ chC ∈ chain ∧
      closeB 50 2 chA chB = true ∧ closeB 50 2 chB chC = true ∧
      closeB 50 2 chA chC = false ∧
      (groupOf chain 50 2 chA = groupOf chain 50 2 chB ∧
        groupOf chain 50 2 chB = groupOf chain 50 2 chC ∧
        groupOf chain 50 2 chA < 0) :=
  ⟨by with_unfolding_all decide, by with_unfolding_all decide,
    by with_unfolding_all decide, by with_unfolding_all decide,
    by with_unfolding_all decide, by with_unfolding_all decide,
    transitive_merge chain 50 2 chA chB chC (by with_unfolding_all decide)
      (by with_unfolding_all decide) (by with_unfolding_all decide)
      (by with_unfolding_all decide) (by with_unfolding_all decide)
      (by with_unfolding_all decide)⟩

/-- Witness: C6 instantiated on the three-event scenario. -/
theorem group_id_assignment_witness :
    (∀ e ∈ demo, 0 ≤ e.id) ∧
      (((((clean_duplicates demo 50 2).filter fun r =>
          decide (r.event_id < 0)).map OutRec.event_id).Nodup) ∧
        (((clean_duplicates demo 50 2).filter fun r =>
            decide (r.event_id < 0)).length =
          (componentsOf demo 50 2).length) ∧
        (∀ r ∈ clean_duplicates demo 50 2, r.event_id < 0 →
          ∃ i, i < (componentsOf demo 50 2).length ∧
            r.event_id = -((i : ℤ) + 1)) ∧
        (∀ r ∈ clean_duplicates demo 50 2, 0 ≤ r.event_id →
          ∃ e ∈ demo, r = passRec e)) :=
  ⟨by with_unfolding_all decide,
    group_id_assignment demo 50 2 (by with_unfolding_all decide)⟩

/-- Witness: C9 instantiated on the three-event scenario. -/
theorem merged_group_min_size_witness :
    (∀ e ∈ demo, 0 ≤ e.id) ∧ (demo.map Event.id).Nodup ∧
      ∀ r ∈ clean_duplicates demo 50 2, r.event_id < 0 →
        2 ≤ (memberEvents demo 50 2 r.event_id).length :=
  ⟨by with_unfolding_all decide, by with_unfolding_all decide,
    merged_group_min_size demo 50 2 (by with_unfolding_all decide)
      (by with_unfolding_all decide)⟩

/-- Witness: C10 instantiated on the three-event scenario. -/
theorem output_order_witness :
    (∀ e ∈ demo, 0 ≤ e.id) ∧
      ∃ s m, clean_duplicates demo 50 2 = s ++ m ∧
        (∀ r ∈ s, 0 ≤ r.event_id) ∧ (∀ r ∈ m, r.event_id < 0) ∧
        List.Sublist (s.map OutRec.event_id) (demo.map Event.id) :=
  ⟨by with_unfolding_all decide,
    output_order demo 50 2 (by with_unfolding_all decide)⟩

/-- Witness: the amended C7 statement instantiated on the pair with a missing
rounds cell. -/
theorem missing_rounds_skipped_witness :
    (∀ e ∈ [evA, evB], 0 ≤ e.id) ∧
      ∀ r ∈ clean_duplicates [evA, evB] 50 2, r.event_id < 0 →
        r.total_rounds =
          some ((memberEvents [evA, evB] 50 2 r.event_id).filterMap
            Event.rounds).sum ∧
        r.mean_rounds =
          optMean ((memberEvents [evA, evB] 50 2 r.event_id).filterMap
            Event.rounds) :=
  ⟨by with_unfolding_all decide,
    missing_rounds_skipped [evA, evB] 50 2 (by with_unfolding_all decide)⟩

end CGIC
